import Mathlib

/-!
Verification development for the calculator core in `src/calc/common.ts`
(kennytm/PWAs): token model, per-token append contract, formula editing
automaton, RPN evaluator, live-preview window, and serialization codec.

JavaScript IEEE-754 double arithmetic is modelled by exact rationals; the
modelling is exact for every arithmetic operation exercised by the theorems
below.  Strings of digits are modelled as lists of characters.
-/

namespace Calc

/-- The `AppendResult` const enum: the directive a token returns from an
append operation (`src/calc/common.ts` lines 1-16). -/
inductive AppendResult : Type where
  | replaced
  | failed
  | createAfter
  | insertAnsAndCreate
  | deleteAndCreate
  | createBefore
  | backspace
deriving DecidableEq, Repr

/-- The `Digit` type: one of the characters `'0'`-`'9'` or `'.'`. -/
inductive Digit : Type where
  | d0 | d1 | d2 | d3 | d4 | d5 | d6 | d7 | d8 | d9 | dot
deriving DecidableEq, Repr

/-- The character a `Digit` stands for. -/
def Digit.toChar : Digit → Char
  | .d0 => '0' | .d1 => '1' | .d2 => '2' | .d3 => '3' | .d4 => '4'
  | .d5 => '5' | .d6 => '6' | .d7 => '7' | .d8 => '8' | .d9 => '9'
  | .dot => '.'

/-- The `BinOp` const enum (`+ − × ÷ ^ E`). -/
inductive BinOp : Type where
  | add | sub | mul | div | pow | ee
deriving DecidableEq, Repr

/-- The `UnOp` const enum (`1/𝘹`, `√`, `±`). -/
inductive UnOp : Type where
  | reciprocal | sqrt | neg
deriving DecidableEq, Repr

/-- The `SymOp` const enum (only `Ans`). -/
inductive SymOp : Type where
  | ans
deriving DecidableEq, Repr

/-- A token of a formula: the closed set of `Token` implementors in the
source (`NumberToken`, `BinaryToken`, `UnaryToken`, `GroupToken`,
`SymbolToken`, `OpenToken`, `EqToken`). -/
inductive Token : Type where
  | number (negative : Bool) (digits : List Char)
  | binary (op : BinOp)
  | unary (op : UnOp)
  | group (tokens : List Token)
  | symbol (op : SymOp)
  | openP
  | eqT
deriving Repr

/-- `token instanceof EqToken`. -/
def Token.isEq : Token → Bool
  | .eqT => true
  | _ => false

/-- `token instanceof OpenToken`. -/
def Token.isOpen : Token → Bool
  | .openP => true
  | _ => false

/-- `new NumberToken(init)`: the constructor turns a lone `'.'` into `"0."`
and any other digit into itself; the sign flag starts out `false`. -/
def mkNumberToken (init : Digit) : Token :=
  .number false (if init = .dot then ['0', '.'] else [init.toChar])

/-- `Token.appendDigit`.  Append methods may mutate the receiving token in
place in the source; here each returns the directive together with the
(possibly updated) token. -/
def Token.appendDigit : Token → Digit → AppendResult × Token
  | .number neg n, d =>
      if d = .dot then
        if n.contains '.' then (.failed, .number neg n)
        else (.replaced, .number neg (n ++ ['.']))
      else
        let n' := if n = ['0'] then [] else n
        (.replaced, .number neg (n' ++ [d.toChar]))
  | .binary op, _ => (.createAfter, .binary op)
  | .unary op, _ => (.failed, .unary op)
  | .group ts, _ => (.failed, .group ts)
  | .symbol op, _ => (.deleteAndCreate, .symbol op)
  | .openP, _ => (.createAfter, .openP)
  | .eqT, _ => (.createAfter, .eqT)

/-- `Token.appendBinary`.  A binary operator token is replaced in place by
the new operator ("last operator wins"). -/
def Token.appendBinary : Token → BinOp → AppendResult × Token
  | .number neg n, _ => (.createAfter, .number neg n)
  | .binary _, op => (.replaced, .binary op)
  | .unary o, _ => (.createAfter, .unary o)
  | .group ts, _ => (.createAfter, .group ts)
  | .symbol o, _ => (.createAfter, .symbol o)
  | .openP, _ => (.failed, .openP)
  | .eqT, _ => (.insertAnsAndCreate, .eqT)

/-- `Token.appendUnary`.  Unary negate toggles the sign of a Number in
place; a repeated negate/reciprocal on a unary token cancels it
(`backspace`). -/
def Token.appendUnary : Token → UnOp → AppendResult × Token
  | .number neg n, op =>
      if op = .neg then (.replaced, .number (!neg) n)
      else (.createAfter, .number neg n)
  | .binary o, _ => (.failed, .binary o)
  | .unary o, op =>
      if op = o ∧ (op = .neg ∨ op = .reciprocal) then (.backspace, .unary o)
      else (.createAfter, .unary o)
  | .group ts, _ => (.createAfter, .group ts)
  | .symbol o, _ => (.createAfter, .symbol o)
  | .openP, _ => (.failed, .openP)
  | .eqT, _ => (.insertAnsAndCreate, .eqT)

/-- `Token.appendSymbol`. -/
def Token.appendSymbol : Token → AppendResult × Token
  | .number neg n => (.deleteAndCreate, .number neg n)
  | .binary o => (.createAfter, .binary o)
  | .unary o => (.failed, .unary o)
  | .group ts => (.failed, .group ts)
  | .symbol o => (.deleteAndCreate, .symbol o)
  | .openP => (.createAfter, .openP)
  | .eqT => (.createAfter, .eqT)

/-- `Token.appendOpen`. -/
def Token.appendOpen : Token → AppendResult × Token
  | .number neg n => (.createBefore, .number neg n)
  | .binary o => (.createAfter, .binary o)
  | .unary o => (.failed, .unary o)
  | .group ts => (.failed, .group ts)
  | .symbol o => (.createBefore, .symbol o)
  | .openP => (.createAfter, .openP)
  | .eqT => (.createAfter, .eqT)

/-- `Token.appendClose`. -/
def Token.appendClose : Token → AppendResult × Token
  | .number neg n => (.createAfter, .number neg n)
  | .binary o => (.failed, .binary o)
  | .unary o => (.createAfter, .unary o)
  | .group ts => (.createAfter, .group ts)
  | .symbol o => (.createAfter, .symbol o)
  | .openP => (.failed, .openP)
  | .eqT => (.failed, .eqT)

/-- `NumberToken.backspace`: drop the last character when more than one
remains (returning `false` = keep the token); report `true` (= delete the
whole token) otherwise. -/
def numberBackspace (digits : List Char) : Bool :=
  decide (digits.length ≤ 1)

/-- `Formula.handleAppendResult`: mutate the token sequence according to
the directive returned by an append (`push`, `push Ans + push`, replace
last, insert before last via `splice(length-1, 0, tok)`, or pop). -/
def handleAppendResult (tokens : List Token) (appendResult : AppendResult)
    (newToken : Token) : List Token :=
  match appendResult with
  | .createAfter => tokens ++ [newToken]
  | .insertAnsAndCreate => tokens ++ [.symbol .ans, newToken]
  | .deleteAndCreate => tokens.dropLast ++ [newToken]
  | .createBefore => tokens.dropLast ++ newToken :: tokens.drop (tokens.length - 1)
  | .backspace => tokens.dropLast
  | _ => tokens

/-- `Formula.appendToLastToken`: run the action against the last token
(writing the possibly-mutated token back), or return the default directive
when the sequence is empty.  When the last token is an Equals marker and
the action did not fail, the whole sequence is cleared first. -/
def appendToLastToken (tokens : List Token) (defaultResult : AppendResult)
    (action : Token → AppendResult × Token) : AppendResult × List Token :=
  match tokens.getLast? with
  | none => (defaultResult, tokens)
  | some token =>
      let result := action token
      if token.isEq && decide (result.1 ≠ AppendResult.failed) then (result.1, [])
      else (result.1, tokens.dropLast ++ [result.2])

/-- `Formula.appendDigit`. -/
def Formula.appendDigit (tokens : List Token) (digit : Digit) : List Token :=
  let r := appendToLastToken tokens .createAfter (fun t => t.appendDigit digit)
  handleAppendResult r.2 r.1 (mkNumberToken digit)

/-- `Formula.appendBinary`. -/
def Formula.appendBinary (tokens : List Token) (op : BinOp) : List Token :=
  let r := appendToLastToken tokens .insertAnsAndCreate (fun t => t.appendBinary op)
  handleAppendResult r.2 r.1 (.binary op)

/-- `Formula.appendUnary`. -/
def Formula.appendUnary (tokens : List Token) (op : UnOp) : List Token :=
  let r := appendToLastToken tokens .insertAnsAndCreate (fun t => t.appendUnary op)
  handleAppendResult r.2 r.1 (.unary op)

/-- `Formula.appendSymbol`. -/
def Formula.appendSymbol (tokens : List Token) (op : SymOp) : List Token :=
  let r := appendToLastToken tokens .createAfter (fun t => t.appendSymbol)
  handleAppendResult r.2 r.1 (.symbol op)

/-- `Formula.appendOpen`. -/
def Formula.appendOpen (tokens : List Token) : List Token :=
  let r := appendToLastToken tokens .createAfter (fun t => t.appendOpen)
  handleAppendResult r.2 r.1 .openP

/-- The backward scan of `Formula.appendClose`: find the closest `(`
marker from the end; return the part before it and the part after it.
The source walks indices `i = length-1 .. 0` looking for an `OpenToken`;
this recursion prefers a match in the tail, hence finds the last one. -/
def splitAtLastOpen : List Token → Option (List Token × List Token)
  | [] => none
  | t :: rest =>
      match splitAtLastOpen rest with
      | some (pre, inner) => some (t :: pre, inner)
      | none => if t.isOpen then some ([], rest) else none

/-- `Formula.appendClose`: returns whether the close succeeded together
with the updated sequence.  On a `createAfter` directive the range from
the nearest Open marker to the end is replaced by a single Group holding
the tokens after the marker.  (The source throws on any directive other
than `failed`/`createAfter`; no token produces one, and the catch-all is
modelled as a failure.) -/
def Formula.appendClose (tokens : List Token) : Bool × List Token :=
  let r := appendToLastToken tokens .failed (fun t => t.appendClose)
  match r.1 with
  | .failed => (false, r.2)
  | .createAfter =>
      match splitAtLastOpen r.2 with
      | some (pre, inner) => (true, pre ++ [.group inner])
      | none => (false, r.2)
  | _ => (false, r.2)

/-- `Formula.backspace`: pop the last token; a multi-character Number is
shortened and pushed back; a Group is re-expanded into an Open marker
followed by its contents. -/
def Formula.backspace (tokens : List Token) : List Token :=
  match tokens.getLast? with
  | none => tokens
  | some t =>
      match t with
      | .number neg n =>
          if n.length > 1 then tokens.dropLast ++ [.number neg n.dropLast]
          else tokens.dropLast
      | .group ts => tokens.dropLast ++ .openP :: ts
      | _ => tokens.dropLast

/-- Count of top-level Open markers; each successful `appendClose`
consumes exactly one, which bounds the `while (appendClose())` loop in
`Formula.appendEq`. -/
def countOpen (tokens : List Token) : Nat :=
  tokens.countP Token.isOpen

/-- The `while (this.appendClose()) { }` loop of `Formula.appendEq`,
driven by fuel.  Fuel `countOpen tokens + 1` is sufficient because every
successful close removes one top-level Open marker. -/
def closeAllLoop : Nat → List Token → List Token
  | 0, tokens => tokens
  | fuel + 1, tokens =>
      match Formula.appendClose tokens with
      | (true, tokens') => closeAllLoop fuel tokens'
      | (false, tokens') => tokens'

/-- `Formula.appendEq`: probe the last token with a close append; unless
the directive is `createAfter`, return with no visible change; otherwise
close all open groups and push an Equals marker. -/
def Formula.appendEq (tokens : List Token) : List Token :=
  let r := appendToLastToken tokens .failed (fun t => t.appendClose)
  if r.1 = .createAfter then
    closeAllLoop (countOpen r.2 + 1) r.2 ++ [.eqT]
  else r.2

/-- `Formula.isComplete`: non-empty and the last token is an Equals
marker. -/
def Formula.isComplete (tokens : List Token) : Bool :=
  decide (0 < tokens.length) &&
    (match tokens.getLast? with
     | some t => t.isEq
     | none => false)

/-! ### Helper lemmas about the automaton -/

theorem isOpen_iff {t : Token} : t.isOpen = true ↔ t = .openP := by
  cases t <;> simp [Token.isOpen]

theorem isEq_iff {t : Token} : t.isEq = true ↔ t = .eqT := by
  cases t <;> simp [Token.isEq]

theorem appendToLastToken_nil (d : AppendResult) (action : Token → AppendResult × Token) :
    appendToLastToken [] d action = (d, []) := rfl

theorem appendToLastToken_concat (l : List Token) (t : Token) (d : AppendResult)
    (action : Token → AppendResult × Token) :
    appendToLastToken (l ++ [t]) d action =
      if t.isEq && decide ((action t).1 ≠ AppendResult.failed)
      then ((action t).1, ([] : List Token))
      else ((action t).1, l ++ [(action t).2]) := by
  simp only [appendToLastToken, List.getLast?_concat, List.dropLast_concat]

/-- No token's `appendClose` mutates the token. -/
theorem appendClose_snd (t : Token) : (Token.appendClose t).2 = t := by
  cases t <;> rfl

/-- `EqToken.appendClose` fails, so probing the last token with a close
append never clears the sequence: the state is unchanged. -/
theorem appendToLastToken_close_snd (ts : List Token) (d : AppendResult) :
    (appendToLastToken ts d (fun t => t.appendClose)).2 = ts := by
  cases hts : ts.getLast? with
  | none => simp [appendToLastToken, hts]
  | some t =>
      have hsplit := List.dropLast_append_getLast? t hts
      conv_lhs => rw [← hsplit]
      rw [appendToLastToken_concat]
      cases t <;> simp [Token.appendClose, Token.isEq, hsplit]

theorem appendToLastToken_close_fst (ts : List Token) (d : AppendResult) :
    (appendToLastToken ts d (fun t => t.appendClose)).1 =
      (match ts.getLast? with
       | none => d
       | some t => (Token.appendClose t).1) := by
  cases hts : ts.getLast? with
  | none => simp [appendToLastToken, hts]
  | some t =>
      have hsplit := List.dropLast_append_getLast? t hts
      conv_lhs => rw [← hsplit]
      rw [appendToLastToken_concat]
      split <;> simp

theorem splitAtLastOpen_none : ∀ {l : List Token},
    splitAtLastOpen l = none → ∀ t ∈ l, t.isOpen = false
  | [], _, t, ht => absurd ht (List.not_mem_nil t)
  | u :: rest, h, t, ht => by
      rw [splitAtLastOpen] at h
      cases hrest : splitAtLastOpen rest with
      | some p => rw [hrest] at h; cases h
      | none =>
          rw [hrest] at h
          rcases List.mem_cons.mp ht with rfl | hmem
          · by_contra hopen
            simp only [Bool.not_eq_false] at hopen
            rw [hopen] at h; cases h
          · exact splitAtLastOpen_none hrest t hmem

theorem splitAtLastOpen_some : ∀ {l pre inner : List Token},
    splitAtLastOpen l = some (pre, inner) →
    l = pre ++ Token.openP :: inner ∧ ∀ t ∈ inner, t.isOpen = false
  | [], _, _, h => by cases h
  | u :: rest, pre, inner, h => by
      rw [splitAtLastOpen] at h
      cases hrest : splitAtLastOpen rest with
      | some p =>
          rw [hrest] at h
          obtain ⟨p1, p2⟩ := p
          obtain ⟨h1, h2⟩ := Prod.mk.injEq .. ▸ Option.some.injEq .. ▸ h
          obtain ⟨hp, hi⟩ := splitAtLastOpen_some hrest
          subst h2
          refine ⟨?_, hi⟩
          rw [← h1, hp]; rfl
      | none =>
          rw [hrest] at h
          by_cases hopen : u.isOpen = true
          · rw [hopen] at h
            simp only [if_true] at h
            obtain ⟨h1, h2⟩ := Prod.mk.injEq .. ▸ Option.some.injEq .. ▸ h
            subst h1; subst h2
            exact ⟨by rw [isOpen_iff.mp hopen]; rfl, splitAtLastOpen_none hrest⟩
          · rw [Bool.not_eq_true] at hopen
            rw [hopen] at h
            cases h

/-- Case analysis for `Formula.appendClose`: either it fails and leaves the
sequence untouched, or the sequence splits at its last Open marker and the
suffix is regrouped. -/
theorem appendClose_cases (ts : List Token) :
    Formula.appendClose ts = (false, ts)
    ∨ ∃ pre inner, ts = pre ++ Token.openP :: inner
        ∧ (∀ t ∈ inner, t.isOpen = false)
        ∧ Formula.appendClose ts = (true, pre ++ [Token.group inner]) := by
  have hsnd := appendToLastToken_close_snd ts .failed
  rw [Formula.appendClose]
  cases hfst : (appendToLastToken ts .failed (fun t => t.appendClose)).1 with
  | failed => left; rw [hsnd]
  | createAfter =>
      cases hsp : splitAtLastOpen (appendToLastToken ts .failed (fun t => t.appendClose)).2 with
      | none => left; rw [hsnd]
      | some p =>
          right
          obtain ⟨pre, inner⟩ := p
          rw [hsnd] at hsp
          obtain ⟨hdecomp, hfree⟩ := splitAtLastOpen_some hsp
          exact ⟨pre, inner, hdecomp, hfree, rfl⟩
  | replaced => left; rw [hsnd]
  | insertAnsAndCreate => left; rw [hsnd]
  | deleteAndCreate => left; rw [hsnd]
  | createBefore => left; rw [hsnd]
  | backspace => left; rw [hsnd]

/-! ### Claim theorems for the editing automaton -/

/-- C9: for every formula ending in a Number token, `backspace` removes the
whole token when the digit-string has a single character, and otherwise
drops exactly one trailing character of it; the rest of the sequence is
untouched. -/
theorem C9_backspace_number (pre : List Token) (neg : Bool) (n : List Char) :
    Formula.backspace (pre ++ [Token.number neg n]) =
      if n.length > 1 then pre ++ [Token.number neg n.dropLast] else pre := by
  simp only [Formula.backspace, List.getLast?_concat, List.dropLast_concat]

/-- C6 counterexample: appending a symbol to a Number yields
`deleteAndCreate`, not `createAfter` as the claim states. -/
theorem C6_counterexample :
    (Token.appendSymbol (Token.number false ['2'])).1 ≠ AppendResult.createAfter := by
  simp [Token.appendSymbol]

/-- C6 (amended): the complete append table of a Number token per the
source: a digit appends in place (`replaced`) unless it is a second
decimal point (`failed`); binary and close appends yield `createAfter`;
unary negate toggles the sign in place (`replaced`); other unaries yield
`createAfter`; a symbol append yields `deleteAndCreate` and an open append
yields `createBefore`; no non-digit, non-negate append changes the
Number. -/
theorem C6_number_append_table (neg : Bool) (n : List Char) (d : Digit) (b : BinOp) :
    (d = Digit.dot → n.contains '.' = true →
        Token.appendDigit (Token.number neg n) d = (AppendResult.failed, Token.number neg n))
    ∧ (¬(d = Digit.dot ∧ n.contains '.' = true) →
        ∃ m, Token.appendDigit (Token.number neg n) d = (AppendResult.replaced, Token.number neg m))
    ∧ Token.appendBinary (Token.number neg n) b = (AppendResult.createAfter, Token.number neg n)
    ∧ Token.appendUnary (Token.number neg n) UnOp.neg
        = (AppendResult.replaced, Token.number (!neg) n)
    ∧ Token.appendUnary (Token.number neg n) UnOp.reciprocal
        = (AppendResult.createAfter, Token.number neg n)
    ∧ Token.appendUnary (Token.number neg n) UnOp.sqrt
        = (AppendResult.createAfter, Token.number neg n)
    ∧ Token.appendSymbol (Token.number neg n) = (AppendResult.deleteAndCreate, Token.number neg n)
    ∧ Token.appendOpen (Token.number neg n) = (AppendResult.createBefore, Token.number neg n)
    ∧ Token.appendClose (Token.number neg n) = (AppendResult.createAfter, Token.number neg n) := by
  refine ⟨?_, ?_, rfl, by simp [Token.appendUnary], by simp [Token.appendUnary],
    by simp [Token.appendUnary], rfl, rfl, rfl⟩
  · intro hd hc
    subst hd
    have hc' : '.' ∈ n := by simpa using hc
    simp [Token.appendDigit, hc']
  · intro h
    by_cases hd : d = Digit.dot
    · subst hd
      have hc : '.' ∉ n := by
        cases hcontains : n.contains '.'
        · simpa using hcontains
        · exact absurd ⟨rfl, hcontains⟩ h
      exact ⟨n ++ ['.'], by simp [Token.appendDigit, hc]⟩
    · exact ⟨(if n = ['0'] then [] else n) ++ [d.toChar], by simp [Token.appendDigit, hd]⟩

/-- C6 witness: on the Number `"0."` a second decimal point is rejected. -/
theorem C6_witness :
    Token.appendDigit (Token.number false ['0', '.']) Digit.dot
      = (AppendResult.failed, Token.number false ['0', '.']) :=
  (C6_number_append_table false ['0', '.'] Digit.dot BinOp.add).1 rfl rfl

/-- C10: `appendDigit('.')` materializes a fresh Number token `"0."` with
sign flag `false` — from the empty formula and after a binary operator, an
Open marker, an Equals marker (clearing first) or a Symbol (replacing
it) — and a second `'.'` appended to that token is rejected. -/
theorem C10_dot_creates_zero_dot (ts : List Token) (b : BinOp) (s : SymOp) :
    Formula.appendDigit [] Digit.dot = [Token.number false ['0', '.']]
    ∧ (ts.getLast? = some (Token.binary b) →
        Formula.appendDigit ts Digit.dot = ts ++ [Token.number false ['0', '.']])
    ∧ (ts.getLast? = some Token.openP →
        Formula.appendDigit ts Digit.dot = ts ++ [Token.number false ['0', '.']])
    ∧ (ts.getLast? = some Token.eqT →
        Formula.appendDigit ts Digit.dot = [Token.number false ['0', '.']])
    ∧ (ts.getLast? = some (Token.symbol s) →
        Formula.appendDigit ts Digit.dot = ts.dropLast ++ [Token.number false ['0', '.']])
    ∧ Token.appendDigit (Token.number false ['0', '.']) Digit.dot
        = (AppendResult.failed, Token.number false ['0', '.']) := by
  refine ⟨rfl, ?_, ?_, ?_, ?_, rfl⟩ <;> intro h <;>
    have hts := List.dropLast_append_getLast? _ h <;>
    conv_lhs => rw [← hts]
  · rw [Formula.appendDigit, appendToLastToken_concat]
    simp [Token.appendDigit, Token.isEq, handleAppendResult, mkNumberToken, hts]
  · rw [Formula.appendDigit, appendToLastToken_concat]
    simp [Token.appendDigit, Token.isEq, handleAppendResult, mkNumberToken, hts]
  · rw [Formula.appendDigit, appendToLastToken_concat]
    simp [Token.appendDigit, Token.isEq, handleAppendResult, mkNumberToken]
  · rw [Formula.appendDigit, appendToLastToken_concat]
    simp [Token.appendDigit, Token.isEq, handleAppendResult, mkNumberToken, hts]

/-- C10 witness: after the binary `+` the dot creates the Number `"0."`. -/
theorem C10_witness :
    Formula.appendDigit [Token.binary BinOp.add] Digit.dot
      = [Token.binary BinOp.add, Token.number false ['0', '.']] :=
  (C10_dot_creates_zero_dot [Token.binary BinOp.add] BinOp.add SymOp.ans).2.1 rfl

/-- C3: against a completed formula (last token an Equals marker) every
successful editing operation clears the sequence first and produces
exactly what the same operation produces on the empty formula; the two
operations that fail against a completed formula, `appendClose` and
`appendEq`, leave it unchanged. -/
theorem C3_complete_clears_first (ts : List Token) (h : ts.getLast? = some Token.eqT) :
    (∀ d, Formula.appendDigit ts d = Formula.appendDigit [] d)
    ∧ (∀ b, Formula.appendBinary ts b = Formula.appendBinary [] b)
    ∧ (∀ u, Formula.appendUnary ts u = Formula.appendUnary [] u)
    ∧ (∀ s, Formula.appendSymbol ts s = Formula.appendSymbol [] s)
    ∧ Formula.appendOpen ts = Formula.appendOpen []
    ∧ Formula.appendClose ts = (false, ts)
    ∧ Formula.appendEq ts = ts := by
  have hts := List.dropLast_append_getLast? _ h
  refine ⟨?_, ?_, ?_, ?_, ?_, ?_, ?_⟩
  · intro d
    conv_lhs => rw [← hts]
    rw [Formula.appendDigit, appendToLastToken_concat]
    rfl
  · intro b
    conv_lhs => rw [← hts]
    rw [Formula.appendBinary, appendToLastToken_concat]
    rfl
  · intro u
    conv_lhs => rw [← hts]
    rw [Formula.appendUnary, appendToLastToken_concat]
    rfl
  · intro s
    conv_lhs => rw [← hts]
    rw [Formula.appendSymbol, appendToLastToken_concat]
    rfl
  · conv_lhs => rw [← hts]
    rw [Formula.appendOpen, appendToLastToken_concat]
    rfl
  · conv_lhs => rw [← hts]
    rw [Formula.appendClose, appendToLastToken_concat]
    simp only [Token.appendClose, Token.isEq]
    rw [hts]
    rfl
  · conv_lhs => rw [← hts]
    rw [Formula.appendEq, appendToLastToken_concat]
    simp only [Token.appendClose, Token.isEq]
    rw [hts]
    rfl

/-- C3 witness: appending the digit 7 to the completed formula `[=]`. -/
theorem C3_witness :
    Formula.appendDigit [Token.eqT] Digit.d7 = Formula.appendDigit [] Digit.d7 :=
  (C3_complete_clears_first [Token.eqT] rfl).1 Digit.d7

/-- C7: `appendClose` leaves the sequence completely unchanged whenever it
fails; a sequence containing no Open marker can never close successfully;
and a successful close splits the sequence at its nearest (last) Open
marker and replaces the marker and everything after it by a single Group
holding exactly the tokens after the marker. -/
theorem C7_appendClose_spec (ts : List Token) :
    ((Formula.appendClose ts).1 = false → (Formula.appendClose ts).2 = ts)
    ∧ ((∀ t ∈ ts, t.isOpen = false) → (Formula.appendClose ts).1 = false)
    ∧ ((Formula.appendClose ts).1 = true →
        ∃ pre inner, ts = pre ++ Token.openP :: inner
          ∧ (∀ t ∈ inner, t.isOpen = false)
          ∧ (Formula.appendClose ts).2 = pre ++ [Token.group inner]) := by
  rcases appendClose_cases ts with hc | ⟨pre, inner, hdecomp, hfree, hc⟩
  · refine ⟨fun _ => by rw [hc], fun _ => by rw [hc], fun htrue => ?_⟩
    rw [hc] at htrue
    cases htrue
  · refine ⟨fun hfalse => ?_, fun hnoopen => ?_, fun _ => ⟨pre, inner, hdecomp, hfree, by rw [hc]⟩⟩
    · rw [hc] at hfalse
      cases hfalse
    · exfalso
      have : Token.openP ∈ ts := by
        rw [hdecomp]
        exact List.mem_append_right _ (List.mem_cons_self _ _)
      have := hnoopen _ this
      simp [Token.isOpen] at this

/-- C7 witness: closing against a lone binary operator fails and leaves
the sequence unchanged. -/
theorem C7_witness :
    (Formula.appendClose [Token.binary BinOp.add]).2 = [Token.binary BinOp.add] :=
  (C7_appendClose_spec [Token.binary BinOp.add]).1 rfl

/-- C8: a successful `appendClose` is undone exactly by `backspace` — the
Group it created re-expands to the Open marker plus its contents,
restoring the pre-close sequence — and closing again reproduces the same
grouped sequence. -/
theorem C8_group_backspace_roundtrip (ts0 ts : List Token)
    (h : Formula.appendClose ts0 = (true, ts)) :
    Formula.backspace ts = ts0
    ∧ Formula.appendClose (Formula.backspace ts) = (true, ts) := by
  rcases appendClose_cases ts0 with hc | ⟨pre, inner, hdecomp, hfree, hc⟩
  · rw [h] at hc
    cases hc
  · rw [h] at hc
    have hts : ts = pre ++ [Token.group inner] := congrArg Prod.snd hc
    have hback : Formula.backspace ts = ts0 := by
      rw [hts, Formula.backspace, List.getLast?_concat, List.dropLast_concat, hdecomp]
    exact ⟨hback, by rw [hback, h]⟩

/-- C8 witness: ungrouping and regrouping `(2)`. -/
theorem C8_witness :
    Formula.backspace [Token.group [Token.number false ['2']]]
      = [Token.openP, Token.number false ['2']] :=
  (C8_group_backspace_roundtrip [Token.openP, Token.number false ['2']]
    [Token.group [Token.number false ['2']]] rfl).1

/-! ### Precedence and the RPN evaluator

The `Precedence` const enum has the numeric values `eq = 0`, `open = 1`,
`add = 2`, `mul = 3`, `pow = 4`, `unary = 5`, `symbol = 6`.
-/

/-- `Token.precedence()` of each variant, as the enum's numeric value. -/
def Token.precedence : Token → Nat
  | .number .. => 6
  | .binary op =>
      match op with
      | .add | .sub => 2
      | .mul | .div => 3
      | .pow | .ee => 4
  | .unary _ => 5
  | .group _ => 6
  | .symbol _ => 6
  | .openP => 1
  | .eqT => 0

/-- The inner `while ((op = ops.pop()))` loop of `toRPN`: pop operators of
higher-or-equal precedence (first component, in pop order) until one of
lower precedence is pushed back (second component is the remaining stack,
top first). -/
def popGE (p : Nat) : List Token → List Token × List Token
  | [] => ([], [])
  | op :: rest =>
      if p ≤ op.precedence then
        let r := popGE p rest
        (op :: r.1, r.2)
      else ([], op :: rest)

/-- The main loop of `toRPN` over the remaining input, the output so far
and the operator stack (top first).  Value-class (6) and unary (5) tokens
go straight to the output; others first pop higher-or-equal-precedence
operators.  At the end the operator stack is flushed top-first, which is
`result.push(...ops.reverse())` in the source. -/
def toRPNGo : List Token → List Token → List Token → List Token
  | [], result, ops => result ++ ops
  | t :: rest, result, ops =>
      if 5 ≤ t.precedence then toRPNGo rest (result ++ [t]) ops
      else
        let r := popGE t.precedence ops
        toRPNGo rest (result ++ r.1) (t :: r.2)

/-- `toRPN`: rearrange a token sequence into RPN order. -/
def toRPN (tokens : List Token) : List Token :=
  toRPNGo tokens [] []

theorem popGE_append (p : Nat) : ∀ ops : List Token,
    (popGE p ops).1 ++ (popGE p ops).2 = ops
  | [] => rfl
  | op :: rest => by
      rw [popGE]
      split
      · simpa using popGE_append p rest
      · rfl

/-- `toRPN` permutes its input: every input token reaches the output
exactly once, through the output list or the operator stack. -/
theorem toRPNGo_perm : ∀ l res ops : List Token,
    List.Perm (toRPNGo l res ops) (res ++ ops ++ l)
  | [], res, ops => by simp [toRPNGo]
  | t :: rest, res, ops => by
      rw [toRPNGo]
      split
      · refine (toRPNGo_perm rest (res ++ [t]) ops).trans ?_
        rw [← Multiset.coe_eq_coe]
        simp only [← Multiset.coe_add, ← Multiset.cons_coe, ← Multiset.singleton_add]
        abel
      · have hp := popGE_append t.precedence ops
        refine (toRPNGo_perm rest (res ++ (popGE t.precedence ops).1)
          (t :: (popGE t.precedence ops).2)).trans ?_
        rw [← Multiset.coe_eq_coe]
        conv_rhs => rw [← hp]
        simp only [← Multiset.coe_add, ← Multiset.cons_coe, ← Multiset.singleton_add]
        abel

theorem sizeOf_of_perm : ∀ {l₁ l₂ : List Token}, List.Perm l₁ l₂ → sizeOf l₁ = sizeOf l₂ := by
  intro l₁ l₂ h
  induction h with
  | nil => rfl
  | cons x _ ih => simp only [List.cons.sizeOf_spec, ih]
  | swap x y l => simp only [List.cons.sizeOf_spec]; omega
  | trans _ _ ih1 ih2 => omega

theorem toRPN_sizeOf (ts : List Token) : sizeOf (toRPN ts) = sizeOf ts := by
  have h := sizeOf_of_perm (toRPNGo_perm ts [] [])
  simpa using h

/-- One history entry: a formula snapshot and its numeric answer. -/
structure CalcHistory : Type where
  formula : List Token
  ans : ℚ

/-- The environment an evaluation runs in; `evaluate` only reads the
most recent history answer (for the `Ans` symbol). -/
structure Environment : Type where
  history : List CalcHistory

/-- Digit characters folded to a natural number. -/
def digitsToNat (l : List Char) : Nat :=
  l.foldl (fun acc c => acc * 10 + (c.toNat - 48)) 0

/-- `parseFloat` restricted to the digit-strings a Number token holds
(digits with at most one decimal point), modelled exactly by a rational.
`parseFloat` of an empty string is NaN in the source; it is modelled as 0
(a Number token's string is never empty when evaluated). -/
def parseNumber (l : List Char) : ℚ :=
  let intPart := l.takeWhile (fun c => c ≠ '.')
  let fracPart := (l.dropWhile (fun c => c ≠ '.')).drop 1
  (digitsToNat intPart : ℚ) + (digitsToNat fracPart : ℚ) / (10 : ℚ) ^ fracPart.length

/-- `Math.pow` modelled on rationals: exact for integer exponents (the
only exponents the theorems below exercise); a non-integer exponent is
modelled as 0.  (`Math.pow(0, -1)` is Infinity in the source; `zpow`
yields 0 there.) -/
def jsPow (a b : ℚ) : ℚ :=
  if b.den = 1 then a ^ b.num else 0

/-- `BinaryToken.evaluate`: `+ − × ÷ pow(left, right)` and the
exponent-shift `left × 10^right`.  Division is exact rational division
(`x ÷ 0` is Infinity/NaN in the source, 0 here; never exercised). -/
def evalBinOp : BinOp → ℚ → ℚ → ℚ
  | .add, left, right => left + right
  | .sub, left, right => left - right
  | .mul, left, right => left * right
  | .div, left, right => left / right
  | .pow, left, right => jsPow left right
  | .ee, left, right => left * jsPow 10 right

/-- `UnaryToken.evaluate`: `1/x`, `Math.sqrt(x)` (modelled by `Rat.sqrt`,
exact on perfect squares), `-x`. -/
def evalUnOp : UnOp → ℚ → ℚ
  | .reciprocal, x => 1 / x
  | .sqrt, x => Rat.sqrt x
  | .neg, x => -x

mutual

/-- `Token.evaluate(env, ...args)`.  A Group converts its contents to RPN
and reduces them; the `Ans` symbol reads the latest history answer (0
with empty history).  Evaluating an Open or Equals marker throws in the
source; those cases are modelled as 0 (the evaluator is never applied to
them by the callers proved about below). -/
def evaluate (env : Environment) : Token → List ℚ → ℚ
  | .number neg n, _ => if neg then -(parseNumber n) else parseNumber n
  | .binary op, args => evalBinOp op (args.getD 0 0) (args.getD 1 0)
  | .unary op, args => evalUnOp op (args.getD 0 0)
  | .group ts, _ => evalRPN env (toRPN ts) []
  | .symbol _, _ =>
      match env.history.getLast? with
      | some h => h.ans
      | none => 0
  | .openP, _ => 0
  | .eqT, _ => 0
termination_by t _ => sizeOf t
decreasing_by
  simp_wf
  simp [toRPN_sizeOf]

/-- The reduction loop of `GroupToken.evaluate` over an RPN sequence with
a number stack (top first; the source's `numbers[0]`, returned at the
end, is the bottom, hence `getLastD`).  Value-class tokens push, unary
tokens replace the top, binary tokens pop two (`left` below `right`) and
push.  Stack underflow reads `undefined` in the source; it is modelled by
evaluating with the missing arguments absent (never exercised on
well-formed sequences). -/
def evalRPN (env : Environment) : List Token → List ℚ → ℚ
  | [], numbers => numbers.getLastD 0
  | t :: rest, numbers =>
      if t.precedence = 6 then
        evalRPN env rest (evaluate env t [] :: numbers)
      else if t.precedence = 5 then
        match numbers with
        | x :: s => evalRPN env rest (evaluate env t [x] :: s)
        | [] => evalRPN env rest []
      else
        match numbers with
        | x :: y :: s => evalRPN env rest (evaluate env t [y, x] :: s)
        | [x] => evalRPN env rest [evaluate env t [x]]
        | [] => evalRPN env rest [evaluate env t []]
termination_by l _ => sizeOf l
decreasing_by
  all_goals simp_wf
  all_goals omega

end

/-- C2: postfix conversion followed by left-to-right reduction respects
operator precedence and is left-associative at equal precedence:
`2 + 3 × 4` evaluates to 14, `(2 + 3) × 4` (a Group followed by `× 4`)
evaluates to 20, and `2 ^ 3 ^ 2` evaluates to `(2^3)^2 = 64`, in every
environment. -/
theorem C2_precedence_examples (env : Environment) :
    evaluate env (Token.group [Token.number false ['2'], Token.binary BinOp.add,
      Token.number false ['3'], Token.binary BinOp.mul, Token.number false ['4']]) [] = 14
    ∧ evaluate env (Token.group [Token.group [Token.number false ['2'], Token.binary BinOp.add,
        Token.number false ['3']], Token.binary BinOp.mul, Token.number false ['4']]) [] = 20
    ∧ evaluate env (Token.group [Token.number false ['2'], Token.binary BinOp.pow,
        Token.number false ['3'], Token.binary BinOp.pow, Token.number false ['2']]) [] = 64 := by
  refine ⟨?_, ?_, ?_⟩ <;>
    · simp [evaluate, evalRPN, toRPN, toRPNGo, popGE, Token.precedence, evalBinOp,
        parseNumber, digitsToNat, jsPow]
      norm_num

/-! ### Serialization codec -/

/-- The serialized forms: the JSON fragment shapes the codec produces and
consumes (strings are modelled as lists of characters). -/
inductive JSON : Type where
  | null
  | bool (b : Bool)
  | str (s : List Char)
  | arr (elems : List JSON)
deriving Repr

/-- The string value of a `BinOp` enum member. -/
def BinOp.code : BinOp → List Char
  | .add => ['+']
  | .sub => ['−']
  | .mul => ['×']
  | .div => ['÷']
  | .pow => ['^']
  | .ee => ['E']

/-- The string value of a `UnOp` enum member. -/
def UnOp.code : UnOp → List Char
  | .reciprocal => ['1', '/', '𝘹']
  | .sqrt => ['√']
  | .neg => ['±']

/-- The string value of a `SymOp` enum member. -/
def SymOp.code : SymOp → List Char
  | .ans => ['A', 'n', 's']

mutual

/-- `serializeToken`: the pair `[tag, payload]` — Number `(sign flag,
digit-string)`, Binary/Unary/Symbol their operator code, Group the
recursively serialized contents, Open/Equals markers `null`. -/
def serializeToken : Token → JSON
  | .number neg n => .arr [.str ['n'], .arr [.bool neg, .str n]]
  | .binary op => .arr [.str ['b'], .str op.code]
  | .unary op => .arr [.str ['u'], .str op.code]
  | .group ts => .arr [.str ['g'], .arr (serializeTokens ts)]
  | .symbol op => .arr [.str ['s'], .str op.code]
  | .openP => .arr [.str ['o'], JSON.null]
  | .eqT => .arr [.str ['e'], JSON.null]

def serializeTokens : List Token → List JSON
  | [] => []
  | t :: ts => serializeToken t :: serializeTokens ts

end

/-- Operator code back to a `BinOp`.  The source's `deserialize` assigns
the payload string unchecked; only the six valid codes ever occur, and an
invalid one is modelled as a decode failure. -/
def binOpOfCode (s : List Char) : Option BinOp :=
  if s = ['+'] then some .add
  else if s = ['−'] then some .sub
  else if s = ['×'] then some .mul
  else if s = ['÷'] then some .div
  else if s = ['^'] then some .pow
  else if s = ['E'] then some .ee
  else none

/-- Operator code back to a `UnOp` (see `binOpOfCode`). -/
def unOpOfCode (s : List Char) : Option UnOp :=
  if s = ['1', '/', '𝘹'] then some .reciprocal
  else if s = ['√'] then some .sqrt
  else if s = ['±'] then some .neg
  else none

/-- Operator code back to a `SymOp` (see `binOpOfCode`). -/
def symOpOfCode (s : List Char) : Option SymOp :=
  if s = ['A', 'n', 's'] then some .ans else none

mutual

/-- `deserializeToken`: dispatch on the tag, construct the initial token
and fill it from the payload.  An unknown tag throws in the source
(`cannot serialize token from ...`); failures are modelled as `none`. -/
def deserializeToken : JSON → Option Token
  | .arr [.str tag, payload] =>
      if tag = ['n'] then
        match payload with
        | .arr [.bool b, .str s] => some (.number b s)
        | _ => none
      else if tag = ['b'] then
        match payload with
        | .str s => (binOpOfCode s).map Token.binary
        | _ => none
      else if tag = ['u'] then
        match payload with
        | .str s => (unOpOfCode s).map Token.unary
        | _ => none
      else if tag = ['g'] then
        match payload with
        | .arr vs => (deserializeTokens vs).map Token.group
        | _ => none
      else if tag = ['s'] then
        match payload with
        | .str s => (symOpOfCode s).map Token.symbol
        | _ => none
      else if tag = ['o'] then some .openP
      else if tag = ['e'] then some .eqT
      else none
  | _ => none

def deserializeTokens : List JSON → Option (List Token)
  | [] => some []
  | v :: vs =>
      match deserializeToken v, deserializeTokens vs with
      | some t, some ts => some (t :: ts)
      | _, _ => none

end

mutual

theorem deserialize_serialize : ∀ t : Token, deserializeToken (serializeToken t) = some t
  | .number neg n => rfl
  | .binary op => by cases op <;> rfl
  | .unary op => by cases op <;> rfl
  | .group ts => by
      have ih := deserializeTokens_serialize ts
      simp [serializeToken, deserializeToken, ih]
  | .symbol op => by cases op; rfl
  | .openP => rfl
  | .eqT => rfl

theorem deserializeTokens_serialize :
    ∀ ts : List Token, deserializeTokens (serializeTokens ts) = some ts
  | [] => rfl
  | t :: ts => by
      have ih1 := deserialize_serialize t
      have ih2 := deserializeTokens_serialize ts
      simp [serializeTokens, deserializeTokens, ih1, ih2]

end

mutual

/-- `Token.renderInto`: the markup fragments a token pushes. -/
def renderInto : Token → List String
  | .number neg n =>
      ["<span class=\"number\">", if neg then "-" else "", String.mk n, "</span>"]
  | .binary op => ["<span class=\"operator\">", String.mk op.code, "</span>"]
  | .unary op => ["<span class=\"operator\">", String.mk op.code, "</span>"]
  | .group ts =>
      "<span class=\"parenthesis\">(</span>"
        :: renderTokens ts ++ ["<span class=\"parenthesis\">)</span>"]
  | .symbol op => ["<span class=\"symbol\">", String.mk op.code, "</span>"]
  | .openP => ["<span class=\"parenthesis\">(</span>"]
  | .eqT => ["<span class=\"eq\">=</span>"]

def renderTokens : List Token → List String
  | [] => []
  | t :: ts => renderInto t ++ renderTokens ts

end

/-- C1: the codec round-trips: decoding an encoded token succeeds and
yields a token with identical evaluation behaviour (in every environment,
with any argument list) and identical rendered output.  (In fact the
decoded token is structurally equal to the original, for every token
value.) -/
theorem C1_serialize_roundtrip (t : Token) :
    ∃ t', deserializeToken (serializeToken t) = some t'
      ∧ (∀ env args, evaluate env t' args = evaluate env t args)
      ∧ renderInto t' = renderInto t :=
  ⟨t, deserialize_serialize t, fun _ _ => rfl, rfl⟩

/-! ### The live-preview window (`Formula.partial`, named `preview` here) -/

/-- The inner `while (start > 0)` loop in the binary-operator case of the
backward walk: scanning down from `start`, return the first position whose
previous token has precedence lower than `p` (the labelled `break
outside`, keeping that position as `start`), or `none` when position 0 is
reached and the loop falls back to the outer walk.  (An out-of-range index
would throw in the source; the default token here is never read from the
call sites proved about.) -/
def innerScan (tokens : List Token) (p : Nat) : Nat → Option Nat
  | 0 => none
  | s + 1 =>
      if (tokens.getD s Token.eqT).precedence < p then some (s + 1)
      else innerScan tokens p s

/-- The outer `outside: while (start >= 0)` walk of `Formula.partial`,
with the source's `start`/`end` indices as integers.  Value-class tokens
end the walk; an Equals marker ends it with the whole prefix (and the
marker excluded); unary tokens extend the window leftward; an Open marker
is skipped and excluded; a binary token is excluded and the window then
extends over higher-or-equal precedence.  Every iteration either returns
or decreases `start`, except a binary token at position 0, which repeats
forever in the source (unreachable through the editing automaton); fuel
(always instantiated with `tokens.length + 2`, enough for every
terminating run) makes the function total. -/
def previewLoop (tokens : List Token) : Nat → Int → Int → Int × Int
  | 0, start, e => (start, e)
  | fuel + 1, start, e =>
      if start < 0 then (start, e)
      else
        match (tokens.getD start.toNat Token.eqT).precedence with
        | 6 => (start, e)
        | 0 => (0, e - 1)
        | 5 => previewLoop tokens fuel (start - 1) e
        | 1 => previewLoop tokens fuel (start - 1) (e - 1)
        | p =>
            match innerScan tokens p start.toNat with
            | some s => ((s : Int), e - 1)
            | none => previewLoop tokens fuel 0 (e - 1)

/-- The `if (start < 0) start = 0` clamp after the walk. -/
def clampStart (s : Int) : Int :=
  if s < 0 then 0 else s

/-- The tail of `Formula.partial` after the walk: clamp `start`, return
the zero Number token for an empty window, else `tokens.slice(start,
end)`. -/
def previewSlice (tokens : List Token) (r : Int × Int) : List Token :=
  if clampStart r.1 ≥ r.2 then [Token.number false ['0']]
  else (tokens.drop (clampStart r.1).toNat).take (r.2 - clampStart r.1).toNat

/-- `Formula.partial`: the slice of the formula whose value is previewed,
computed by the backward walk from `start = length - 1`, `end =
length`. -/
def Formula.preview (tokens : List Token) : List Token :=
  previewSlice tokens
    (previewLoop tokens (tokens.length + 2) ((tokens.length : Int) - 1)
      (tokens.length : Int))

theorem clampStart_eq (s : Int) : clampStart s = max s 0 := by
  rw [clampStart]
  split <;> omega

theorem innerScan_le (tokens : List Token) (p : Nat) :
    ∀ n s, innerScan tokens p n = some s → s ≤ n
  | 0, s, h => by cases h
  | n + 1, s, h => by
      rw [innerScan] at h
      split at h
      · cases h
        omega
      · have := innerScan_le tokens p n s h
        omega

/-- The walk never moves the window start to the right of where it
started (or of 0). -/
theorem previewLoop_fst_le :
    ∀ (fuel : Nat) (tokens : List Token) (s e : Int),
      (previewLoop tokens fuel s e).1 ≤ max s 0
  | 0, _, s, _ => le_max_left s 0
  | fuel + 1, tokens, s, e => by
      rw [previewLoop]
      split
      · exact le_max_left s 0
      · split
        · exact le_max_left s 0
        · exact le_max_right s 0
        · exact le_trans (previewLoop_fst_le fuel tokens (s - 1) e) (by omega)
        · exact le_trans (previewLoop_fst_le fuel tokens (s - 1) (e - 1)) (by omega)
        · split
          · rename_i s' hscan
            have h1 := innerScan_le tokens _ s.toNat s' hscan
            show (s' : Int) ≤ max s 0
            omega
          · exact le_trans (previewLoop_fst_le fuel tokens 0 (e - 1)) (by omega)

/-- The walk never moves the window end to the right. -/
theorem previewLoop_snd_le :
    ∀ (fuel : Nat) (tokens : List Token) (s e : Int),
      (previewLoop tokens fuel s e).2 ≤ e
  | 0, _, _, e => le_refl e
  | fuel + 1, tokens, s, e => by
      rw [previewLoop]
      split
      · exact le_refl e
      · split
        · exact le_refl e
        · show e - 1 ≤ e
          omega
        · exact previewLoop_snd_le fuel tokens (s - 1) e
        · exact le_trans (previewLoop_snd_le fuel tokens (s - 1) (e - 1)) (by omega)
        · split
          · show e - 1 ≤ e
            omega
          · exact le_trans (previewLoop_snd_le fuel tokens 0 (e - 1)) (by omega)

/-- Over a formula consisting only of Open markers the walk skips every
marker and runs `start` off the left edge, shrinking the window to
nothing. -/
theorem previewLoop_all_open :
    ∀ (fuel : Nat) (k : Nat) (s e : Int), 0 ≤ s → s < k → s + 2 ≤ fuel →
      previewLoop (List.replicate k Token.openP) fuel s e = (s - s - 1, e - s - 1)
  | 0, _, s, _, _, _, hfuel => by omega
  | fuel + 1, k, s, e, hs0, hsk, hfuel => by
      rw [previewLoop]
      rw [if_neg (by omega)]
      have hget : (List.replicate k Token.openP).getD s.toNat Token.eqT = Token.openP := by
        have : s.toNat < k := by omega
        simp [List.getD_eq_getElem?_getD, List.getElem?_replicate, this]
      rw [hget]
      simp only [Token.precedence]
      by_cases hzero : s = 0
      · subst hzero
        cases fuel with
        | zero => omega
        | succ f =>
            rw [previewLoop, if_pos (by omega)]
            simp only [Prod.mk.injEq]
            omega
      · have := previewLoop_all_open fuel k (s - 1) (e - 1) (by omega) (by omega) (by omega)
        rw [this]
        simp only [Prod.mk.injEq]
        omega

/-- C5 counterexample: for the singleton completed formula `[=]` the
claimed window "entire sequence minus the marker" is empty, and
`partial()` returns the zero Number token instead of that empty list. -/
theorem C5_counterexample :
    Formula.preview [Token.eqT] ≠ List.dropLast [Token.eqT] := by
  have h : Formula.preview [Token.eqT] = [Token.number false ['0']] := rfl
  rw [h]
  simp

/-- C5 (amended): for every formula of at least two tokens ending in an
Equals marker, `partial()` returns the entire sequence minus the marker;
whenever the backward-walk window comes out empty — in particular for the
singleton `[=]` formula (where the sequence minus the marker is empty),
the empty formula, and formulas of only Open markers — it returns the
single Number token `0`, which evaluates to zero; consequently
`partial()` never returns an empty list. -/
theorem C5_preview_spec :
    (∀ ts : List Token, 2 ≤ ts.length → ts.getLast? = some Token.eqT →
        Formula.preview ts = ts.dropLast)
    ∧ Formula.preview [Token.eqT] = [Token.number false ['0']]
    ∧ Formula.preview [] = [Token.number false ['0']]
    ∧ (∀ k : Nat, Formula.preview (List.replicate k Token.openP)
        = [Token.number false ['0']])
    ∧ (∀ env args, evaluate env (Token.number false ['0']) args = 0)
    ∧ (∀ ts : List Token, Formula.preview ts ≠ []) := by
  refine ⟨?_, rfl, rfl, ?_, ?_, ?_⟩
  · intro ts hlen hlast
    have hget : ts.getD (((ts.length : Int) - 1).toNat) Token.eqT = Token.eqT := by
      rw [List.getLast?_eq_getElem?] at hlast
      have h1 : ((ts.length : Int) - 1).toNat = ts.length - 1 := by omega
      rw [h1, List.getD_eq_getElem?_getD, hlast]
      rfl
    have hstep : previewLoop ts (ts.length + 2) ((ts.length : Int) - 1) (ts.length : Int)
        = (0, (ts.length : Int) - 1) := by
      rw [show ts.length + 2 = (ts.length + 1) + 1 from rfl, previewLoop,
        if_neg (by omega), hget]
      rfl
    rw [Formula.preview, hstep, previewSlice]
    have hc : clampStart (0, (ts.length : Int) - 1).1 = 0 := rfl
    rw [hc, if_neg (by omega)]
    have h2 : ((0 : Int).toNat) = 0 := rfl
    have h3 : (((0, (ts.length : Int) - 1).2 - 0).toNat) = ts.length - 1 := by
      show (((ts.length : Int) - 1 - 0).toNat) = ts.length - 1
      omega
    rw [h2, h3, List.drop_zero, List.dropLast_eq_take]
  · intro k
    cases k with
    | zero => rfl
    | succ m =>
        rw [Formula.preview]
        have hlen : (List.replicate (m + 1) Token.openP).length = m + 1 :=
          List.length_replicate (m + 1) Token.openP
        rw [hlen]
        have hloop := previewLoop_all_open (m + 1 + 2) (m + 1)
          (((m + 1 : Nat) : Int) - 1) ((m + 1 : Nat) : Int) (by omega) (by omega)
          (by push_cast; omega)
        rw [hloop]
        have hpair : ((((m + 1 : Nat) : Int) - 1) - (((m + 1 : Nat) : Int) - 1) - 1,
            ((m + 1 : Nat) : Int) - (((m + 1 : Nat) : Int) - 1) - 1) = ((-1 : Int), (0 : Int)) := by
          simp only [Prod.mk.injEq]
          omega
        rw [hpair]
        rfl
  · intro env args
    simp [evaluate, parseNumber, digitsToNat]
  · intro ts h
    rw [Formula.preview] at h
    have h1 := previewLoop_fst_le (ts.length + 2) ts ((ts.length : Int) - 1) (ts.length : Int)
    have h2 := previewLoop_snd_le (ts.length + 2) ts ((ts.length : Int) - 1) (ts.length : Int)
    rw [previewSlice, clampStart_eq] at h
    split at h
    · cases h
    · rename_i hlt
      rcases List.take_eq_nil_iff.mp h with htake | hdrop
      · omega
      · rw [List.drop_eq_nil_iff] at hdrop
        omega

/-- C5 witness: the completed two-token formula `[2, =]` previews as its
sequence minus the marker. -/
theorem C5_witness :
    Formula.preview [Token.number false ['2'], Token.eqT]
      = List.dropLast [Token.number false ['2'], Token.eqT] :=
  C5_preview_spec.1 [Token.number false ['2'], Token.eqT] (by decide) rfl

/-! ### The Equals-marker invariant over reachable formula states -/

mutual

/-- A token that is not an Equals marker and contains none inside any
nested Group. -/
def eqFreeTok : Token → Bool
  | .group ts => eqFreeList ts
  | .eqT => false
  | _ => true

def eqFreeList : List Token → Bool
  | [] => true
  | t :: ts => eqFreeTok t && eqFreeList ts

end

/-- The Equals-marker invariant: every token except possibly the last is
free of Equals markers (also inside Groups), and the last token is either
itself free of them or is the Equals marker ending the formula. -/
def EqInv (ts : List Token) : Prop :=
  eqFreeList ts.dropLast = true
  ∧ ∀ last, ts.getLast? = some last → (eqFreeTok last = true ∨ last = Token.eqT)

/-- The formula states reachable from the empty formula through the
editing operations of the automaton. -/
inductive Reachable : List Token → Prop where
  | empty : Reachable []
  | digit (d : Digit) {ts : List Token} :
      Reachable ts → Reachable (Formula.appendDigit ts d)
  | binary (op : BinOp) {ts : List Token} :
      Reachable ts → Reachable (Formula.appendBinary ts op)
  | unary (op : UnOp) {ts : List Token} :
      Reachable ts → Reachable (Formula.appendUnary ts op)
  | symbol (op : SymOp) {ts : List Token} :
      Reachable ts → Reachable (Formula.appendSymbol ts op)
  | openMark {ts : List Token} :
      Reachable ts → Reachable (Formula.appendOpen ts)
  | close {ts : List Token} :
      Reachable ts → Reachable (Formula.appendClose ts).2
  | eqMark {ts : List Token} :
      Reachable ts → Reachable (Formula.appendEq ts)
  | back {ts : List Token} :
      Reachable ts → Reachable (Formula.backspace ts)

theorem eqFreeList_append (a b : List Token) :
    eqFreeList (a ++ b) = (eqFreeList a && eqFreeList b) := by
  induction a with
  | nil => simp [eqFreeList]
  | cons t rest ih => simp [eqFreeList, ih, Bool.and_assoc]

theorem eqFreeList_mem {l : List Token} (h : eqFreeList l = true) :
    ∀ t ∈ l, eqFreeTok t = true := by
  induction l with
  | nil => intro t ht; cases ht
  | cons u rest ih =>
      rw [eqFreeList, Bool.and_eq_true] at h
      intro t ht
      rcases List.mem_cons.mp ht with rfl | hmem
      · exact h.1
      · exact ih h.2 t hmem

theorem eqFreeList_dropLast {l : List Token} (h : eqFreeList l = true) :
    eqFreeList l.dropLast = true := by
  cases hlast : l.getLast? with
  | none => rw [List.getLast?_eq_none_iff.mp hlast]; rfl
  | some t =>
      have hl := List.dropLast_append_getLast? t hlast
      rw [← hl, eqFreeList_append, Bool.and_eq_true] at h
      exact h.1

theorem eqFreeList_of_forall :
    ∀ {l : List Token}, (∀ t ∈ l, eqFreeTok t = true) → eqFreeList l = true
  | [], _ => rfl
  | t :: rest, h => by
      rw [eqFreeList, Bool.and_eq_true]
      exact ⟨h t (List.mem_cons_self t rest),
        eqFreeList_of_forall (fun u hu => h u (List.mem_cons_of_mem t hu))⟩

theorem eqFreeList_drop {l : List Token} (h : eqFreeList l = true) (n : Nat) :
    eqFreeList (l.drop n) = true :=
  eqFreeList_of_forall (fun t ht => eqFreeList_mem h t (List.mem_of_mem_drop ht))

/-- A list of eq-free tokens satisfies the invariant. -/
theorem EqInv_of_eqFreeList {l : List Token} (h : eqFreeList l = true) : EqInv l := by
  refine ⟨eqFreeList_dropLast h, ?_⟩
  intro last hlast
  left
  exact eqFreeList_mem h last (List.mem_of_mem_getLast? hlast)

/-- Appending an eq-free token to an eq-free list keeps the invariant. -/
theorem EqInv_concat {l : List Token} {t : Token}
    (hl : eqFreeList l = true) (ht : eqFreeTok t = true) : EqInv (l ++ [t]) := by
  refine EqInv_of_eqFreeList ?_
  rw [eqFreeList_append, hl, eqFreeList, ht]
  rfl

/-- Every directive applied by `handleAppendResult` to an eq-free state
with an eq-free fresh token keeps the invariant. -/
theorem EqInv_handle_of_eqFree {l : List Token} {newTok : Token} (r : AppendResult)
    (hl : eqFreeList l = true) (hnew : eqFreeTok newTok = true) :
    EqInv (handleAppendResult l r newTok) := by
  cases r with
  | createAfter => exact EqInv_concat hl hnew
  | insertAnsAndCreate =>
      show EqInv (l ++ [Token.symbol SymOp.ans, newTok])
      have h2 : l ++ [Token.symbol SymOp.ans, newTok]
          = (l ++ [Token.symbol SymOp.ans]) ++ [newTok] := by simp
      rw [h2]
      exact EqInv_concat (by rw [eqFreeList_append, hl]; rfl) hnew
  | deleteAndCreate => exact EqInv_concat (eqFreeList_dropLast hl) hnew
  | createBefore =>
      show EqInv (l.dropLast ++ newTok :: l.drop (l.length - 1))
      refine EqInv_of_eqFreeList ?_
      rw [eqFreeList_append, eqFreeList_dropLast hl, eqFreeList, hnew,
        eqFreeList_drop hl]
      rfl
  | backspace => exact EqInv_of_eqFreeList (eqFreeList_dropLast hl)
  | replaced => exact EqInv_of_eqFreeList hl
  | failed => exact EqInv_of_eqFreeList hl

/-- Any append operation routed through `appendToLastToken` and
`handleAppendResult` preserves the invariant, provided the action keeps
eq-free tokens eq-free, does not mutate an Equals marker, and the fresh
token is eq-free. -/
theorem EqInv_appendVia (ts : List Token) (d : AppendResult)
    (action : Token → AppendResult × Token) (newTok : Token)
    (hinv : EqInv ts)
    (hact : ∀ t, eqFreeTok t = true → eqFreeTok (action t).2 = true)
    (heq : (action Token.eqT).2 = Token.eqT)
    (hnew : eqFreeTok newTok = true) :
    EqInv (handleAppendResult (appendToLastToken ts d action).2
      (appendToLastToken ts d action).1 newTok) := by
  cases hlast : ts.getLast? with
  | none =>
      have hnil : ts = [] := List.getLast?_eq_none_iff.mp hlast
      subst hnil
      rw [appendToLastToken_nil]
      exact EqInv_handle_of_eqFree d rfl hnew
  | some last =>
      have hts := List.dropLast_append_getLast? last hlast
      obtain ⟨hpre, hlastInv⟩ := hinv
      rw [← hts, appendToLastToken_concat]
      by_cases hguard : (last.isEq && decide ((action last).1 ≠ AppendResult.failed)) = true
      · rw [if_pos hguard]
        exact EqInv_handle_of_eqFree _ rfl hnew
      · rw [if_neg hguard]
        rcases hlastInv last hlast with hfree | hiseq
        · have ht' := hact last hfree
          have hts' : eqFreeList (ts.dropLast ++ [(action last).2]) = true := by
            rw [eqFreeList_append, hpre, eqFreeList, ht']
            rfl
          exact EqInv_handle_of_eqFree _ hts' hnew
        · subst hiseq
          have hfail : (action Token.eqT).1 = AppendResult.failed := by
            by_contra hne
            exact hguard
              (by rw [show Token.eqT.isEq = true from rfl, decide_eq_true hne]; rfl)
          rw [heq, hfail]
          show EqInv (ts.dropLast ++ [Token.eqT])
          rw [hts]
          exact ⟨hpre, hlastInv⟩

theorem eqFree_appendDigit (d : Digit) (t : Token) (ht : eqFreeTok t = true) :
    eqFreeTok (Token.appendDigit t d).2 = true := by
  cases t with
  | number neg n =>
      rw [Token.appendDigit]
      split
      · split <;> rfl
      · rfl
  | group g => exact ht
  | eqT => exact ht
  | binary op => rfl
  | unary op => rfl
  | symbol op => rfl
  | openP => rfl

theorem eqFree_appendBinary (op : BinOp) (t : Token) (ht : eqFreeTok t = true) :
    eqFreeTok (Token.appendBinary t op).2 = true := by
  cases t <;> first | rfl | exact ht

theorem eqFree_appendUnary (op : UnOp) (t : Token) (ht : eqFreeTok t = true) :
    eqFreeTok (Token.appendUnary t op).2 = true := by
  cases t with
  | number neg n =>
      rw [Token.appendUnary]
      split <;> rfl
  | unary o =>
      rw [Token.appendUnary]
      split <;> rfl
  | group g => exact ht
  | eqT => exact ht
  | binary o => rfl
  | symbol o => rfl
  | openP => rfl

theorem eqFree_appendSymbol (t : Token) (ht : eqFreeTok t = true) :
    eqFreeTok (Token.appendSymbol t).2 = true := by
  cases t <;> exact ht

theorem eqFree_appendOpen (t : Token) (ht : eqFreeTok t = true) :
    eqFreeTok (Token.appendOpen t).2 = true := by
  cases t <;> exact ht

theorem EqInv_appendDigit (ts : List Token) (d : Digit) (h : EqInv ts) :
    EqInv (Formula.appendDigit ts d) :=
  EqInv_appendVia ts .createAfter (fun t => t.appendDigit d) (mkNumberToken d) h
    (eqFree_appendDigit d) rfl rfl

theorem EqInv_appendBinary (ts : List Token) (op : BinOp) (h : EqInv ts) :
    EqInv (Formula.appendBinary ts op) :=
  EqInv_appendVia ts .insertAnsAndCreate (fun t => t.appendBinary op) (.binary op) h
    (eqFree_appendBinary op) rfl rfl

theorem EqInv_appendUnary (ts : List Token) (op : UnOp) (h : EqInv ts) :
    EqInv (Formula.appendUnary ts op) :=
  EqInv_appendVia ts .insertAnsAndCreate (fun t => t.appendUnary op) (.unary op) h
    (eqFree_appendUnary op) rfl rfl

theorem EqInv_appendSymbol (ts : List Token) (op : SymOp) (h : EqInv ts) :
    EqInv (Formula.appendSymbol ts op) :=
  EqInv_appendVia ts .createAfter (fun t => t.appendSymbol) (.symbol op) h
    (fun t => eqFree_appendSymbol t) rfl rfl

theorem EqInv_appendOpen (ts : List Token) (h : EqInv ts) :
    EqInv (Formula.appendOpen ts) :=
  EqInv_appendVia ts .createAfter (fun t => t.appendOpen) .openP h
    (fun t => eqFree_appendOpen t) rfl rfl

/-- A successful close comes from a `createAfter` directive of the last
token. -/
theorem appendClose_success_last {ts : List Token}
    (h : (Formula.appendClose ts).1 = true) :
    ∃ last, ts.getLast? = some last
      ∧ (Token.appendClose last).1 = AppendResult.createAfter := by
  rw [Formula.appendClose] at h
  have hfst := appendToLastToken_close_fst ts .failed
  cases hr : (appendToLastToken ts .failed fun t => t.appendClose).1 with
  | createAfter =>
      rw [hr] at hfst
      cases hlast : ts.getLast? with
      | none => rw [hlast] at hfst; cases hfst
      | some t =>
          rw [hlast] at hfst
          exact ⟨t, rfl, hfst.symm⟩
  | failed => rw [hr] at h; exact Bool.noConfusion h
  | replaced => rw [hr] at h; exact Bool.noConfusion h
  | insertAnsAndCreate => rw [hr] at h; exact Bool.noConfusion h
  | deleteAndCreate => rw [hr] at h; exact Bool.noConfusion h
  | createBefore => rw [hr] at h; exact Bool.noConfusion h
  | backspace => rw [hr] at h; exact Bool.noConfusion h

theorem eqFreeList_appendClose {ts : List Token} (h : eqFreeList ts = true) :
    eqFreeList (Formula.appendClose ts).2 = true := by
  rcases appendClose_cases ts with hc | ⟨pre, inner, hdecomp, hfree, hc⟩
  · rw [hc]
    exact h
  · rw [hc]
    rw [hdecomp, eqFreeList_append] at h
    rw [Bool.and_eq_true, eqFreeList, Bool.and_eq_true] at h
    obtain ⟨hpre2, -, hinner⟩ := h
    rw [eqFreeList_append, hpre2, eqFreeList,
      show eqFreeTok (Token.group inner) = eqFreeList inner from rfl, hinner]
    rfl

theorem EqInv_appendClose {ts : List Token} (h : EqInv ts) :
    EqInv (Formula.appendClose ts).2 := by
  by_cases hsucc : (Formula.appendClose ts).1 = true
  · obtain ⟨last, hlast, hdir⟩ := appendClose_success_last hsucc
    have hlne : last ≠ Token.eqT := by
      intro hcon
      subst hcon
      simp [Token.appendClose] at hdir
    have hfree : eqFreeList ts = true := by
      obtain ⟨hpre, hinv2⟩ := h
      rcases hinv2 last hlast with hfr | hiseq
      · rw [← List.dropLast_append_getLast? last hlast, eqFreeList_append, hpre,
          eqFreeList, hfr]
        rfl
      · exact absurd hiseq hlne
    exact EqInv_of_eqFreeList (eqFreeList_appendClose hfree)
  · rcases appendClose_cases ts with hc | ⟨pre, inner, hdecomp, hfree2, hc⟩
    · rw [hc]
      exact h
    · rw [hc] at hsucc
      exact absurd rfl hsucc

theorem eqFreeList_closeAllLoop :
    ∀ (fuel : Nat) {ts : List Token}, eqFreeList ts = true →
      eqFreeList (closeAllLoop fuel ts) = true
  | 0, _, h => h
  | fuel + 1, ts, h => by
      rw [closeAllLoop]
      have h' := eqFreeList_appendClose h
      cases hc : Formula.appendClose ts with
      | mk ok ts' =>
          rw [hc] at h'
          cases ok
          · exact h'
          · exact eqFreeList_closeAllLoop fuel h'

theorem EqInv_appendEq {ts : List Token} (h : EqInv ts) :
    EqInv (Formula.appendEq ts) := by
  rw [Formula.appendEq]
  split
  · rename_i hdir
    rw [appendToLastToken_close_snd]
    have hfst := appendToLastToken_close_fst ts .failed
    rw [hdir] at hfst
    have hfree : eqFreeList ts = true := by
      cases hlast : ts.getLast? with
      | none => rw [hlast] at hfst; cases hfst
      | some last =>
          rw [hlast] at hfst
          have hlne : last ≠ Token.eqT := by
            intro hcon
            subst hcon
            simp [Token.appendClose] at hfst
          obtain ⟨hpre, hinv2⟩ := h
          rcases hinv2 last hlast with hfr | hiseq
          · rw [← List.dropLast_append_getLast? last hlast, eqFreeList_append, hpre,
              eqFreeList, hfr]
            rfl
          · exact absurd hiseq hlne
    refine ⟨?_, ?_⟩
    · rw [List.dropLast_concat]
      exact eqFreeList_closeAllLoop _ hfree
    · intro last hlast
      rw [List.getLast?_concat] at hlast
      right
      exact (Option.some.inj hlast).symm
  · rw [appendToLastToken_close_snd]
    exact h

theorem EqInv_backspace {ts : List Token} (h : EqInv ts) :
    EqInv (Formula.backspace ts) := by
  cases hlast : ts.getLast? with
  | none =>
      have hnil := List.getLast?_eq_none_iff.mp hlast
      subst hnil
      exact h
  | some t =>
      obtain ⟨hpre, hinv2⟩ := h
      have hts := List.dropLast_append_getLast? t hlast
      rw [← hts]
      cases t with
      | number neg n =>
          simp only [Formula.backspace, List.getLast?_concat, List.dropLast_concat]
          split
          · exact EqInv_concat hpre rfl
          · exact EqInv_of_eqFreeList hpre
      | group g =>
          simp only [Formula.backspace, List.getLast?_concat, List.dropLast_concat]
          rcases hinv2 _ hlast with hfree | hiseq
          · have hg : eqFreeList g = true := hfree
            refine EqInv_of_eqFreeList ?_
            rw [eqFreeList_append, hpre, eqFreeList,
              show eqFreeTok Token.openP = true from rfl, hg]
            rfl
          · exact Token.noConfusion hiseq
      | eqT =>
          simp only [Formula.backspace, List.getLast?_concat, List.dropLast_concat]
          exact EqInv_of_eqFreeList hpre
      | binary op =>
          simp only [Formula.backspace, List.getLast?_concat, List.dropLast_concat]
          exact EqInv_of_eqFreeList hpre
      | unary op =>
          simp only [Formula.backspace, List.getLast?_concat, List.dropLast_concat]
          exact EqInv_of_eqFreeList hpre
      | symbol op =>
          simp only [Formula.backspace, List.getLast?_concat, List.dropLast_concat]
          exact EqInv_of_eqFreeList hpre
      | openP =>
          simp only [Formula.backspace, List.getLast?_concat, List.dropLast_concat]
          exact EqInv_of_eqFreeList hpre

theorem isComplete_iff (ts : List Token) :
    Formula.isComplete ts = true ↔ ts ≠ [] ∧ ts.getLast? = some Token.eqT := by
  rw [Formula.isComplete, Bool.and_eq_true, decide_eq_true_eq]
  constructor
  · rintro ⟨hlen, hmatch⟩
    cases hlast : ts.getLast? with
    | none => rw [hlast] at hmatch; cases hmatch
    | some t =>
        rw [hlast] at hmatch
        refine ⟨by intro hnil; subst hnil; simp at hlen, ?_⟩
        rw [← isEq_iff.mp hmatch]
  · rintro ⟨hne, hlast⟩
    refine ⟨List.length_pos.mpr hne, ?_⟩
    rw [hlast]
    rfl

/-- C4: in every formula state reachable from the empty formula, every
token except possibly the last is free of Equals markers (also inside
Groups) and the last token is eq-free or the Equals marker itself — so a
marker occurs at most once, only as the last top-level token, never
inside a Group; and `isComplete()` is true exactly for a non-empty
sequence whose last token is the marker. -/
theorem C4_eq_marker_invariant (ts : List Token) (h : Reachable ts) :
    EqInv ts
    ∧ (Formula.isComplete ts = true ↔ ts ≠ [] ∧ ts.getLast? = some Token.eqT) := by
  refine ⟨?_, isComplete_iff ts⟩
  induction h with
  | empty => exact ⟨rfl, fun l hl => by cases hl⟩
  | digit d hr ih => exact EqInv_appendDigit _ d ih
  | binary op hr ih => exact EqInv_appendBinary _ op ih
  | unary op hr ih => exact EqInv_appendUnary _ op ih
  | symbol op hr ih => exact EqInv_appendSymbol _ op ih
  | openMark hr ih => exact EqInv_appendOpen _ ih
  | close hr ih => exact EqInv_appendClose ih
  | eqMark hr ih => exact EqInv_appendEq ih
  | back hr ih => exact EqInv_backspace ih

/-- C4 witness: the state reached by typing `2` then `=`, namely
`[2, =]`, satisfies the invariant and is complete. -/
theorem C4_witness :
    Formula.isComplete (Formula.appendEq (Formula.appendDigit [] Digit.d2)) = true :=
  (C4_eq_marker_invariant _ (Reachable.eqMark (Reachable.digit Digit.d2
    Reachable.empty))).2.mpr
    ⟨fun hcon =>
      List.noConfusion
        (show ([Token.number false ['2'], Token.eqT] : List Token) = [] from hcon),
      rfl⟩

end Calc
